import Mathlib

/-!
Verification of the Tidypy Chess Rep Builder interval-analysis core.

This file gives a shallow embedding of the Python sources
(`ply_utils.py`, `worker.py`, `polyglot_writer.py`, `file_manager.py`,
`engine_manager.py`) and proves, or refutes, the frozen specification
claims about them.  Machine integers are modelled as `Int`/`Nat`
(Python integers are unbounded), external chess-library calls
(python-chess boards and engines) are abstracted as explicit functional
parameters, and the ordered-children PGN node tree of python-chess is
modelled as a first-order inductive forest in which `add_variation`
appends a child at the end of a node's variation list, exactly as
`ChildNode.__init__` does (`parent.variations.append(self)`).
-/

namespace Tidypy

/-- The `Perspective` enum from `config.py`. -/
inductive Perspective where
  | white : Perspective
  | black : Perspective
deriving DecidableEq, Repr

/-- Embedding of `ply_utils.move_to_ply`: `base_ply = (move_number - 1) * 2 + 1`,
incremented once more for Black. -/
def move_to_ply (move_number : Int) (perspective : Perspective) : Int :=
  let base_ply := (move_number - 1) * 2 + 1
  if perspective = Perspective.black then base_ply + 1 else base_ply

/-- The fields of `config.AnalysisConfig` that the analysis core reads.
Python integers are unbounded, hence `Int`; `AnalysisConfig.validate`
clamps each field into its `CONSTRAINTS` range
(`skip_first ∈ [0,20]`, `increment ∈ [5,15]`, `max_move ∈ [10,37]`,
`extension ∈ [3,10]`, `candidates ∈ [1,3]`, `tolerance ∈ [50,500]`). -/
structure AnalysisConfig where
  perspective : Perspective
  skip_first : Int
  increment : Int
  max_move : Int
  extension : Nat
  tolerance : Int

/-- Phase A loop of `ply_utils.generate_analysis_plies` (lines 54–59):
`while current <= skip_ply and current <= max_ply: plies.append(current); current += 2`. -/
def phaseALoop (skip_ply max_ply : Int) (current : Int) (plies : List Int) : List Int :=
  if current ≤ skip_ply ∧ current ≤ max_ply then
    phaseALoop skip_ply max_ply (current + 2) (plies ++ [current])
  else plies
termination_by (skip_ply + 2 - current).toNat
decreasing_by omega

/-- Phase B loop of `ply_utils.generate_analysis_plies` (lines 71–75):
`while current <= max_ply: if current not in plies: plies.append(current); current += ply_step`.
The positivity proof for the step mirrors the termination assumption under
which the Python loop terminates at all (`ply_step = increment * 2 > 0`). -/
def phaseBLoop (max_ply ply_step : Int) (hstep : 0 < ply_step) (current : Int)
    (plies : List Int) : List Int :=
  if current ≤ max_ply then
    phaseBLoop max_ply ply_step hstep (current + ply_step)
      (if current ∈ plies then plies else plies ++ [current])
  else plies
termination_by (max_ply + ply_step - current).toNat
decreasing_by omega

/-- Embedding of `ply_utils.generate_analysis_plies`.  The hypothesis
`0 < config.increment` is the domain on which the Python loop terminates;
every validated config satisfies it (`increment ∈ [5,15]`). -/
def generate_analysis_plies (config : AnalysisConfig) (hinc : 0 < config.increment) :
    List Int :=
  let start_ply : Int := if config.perspective = Perspective.white then 1 else 2
  let max_ply := move_to_ply config.max_move config.perspective
  let pliesA : List Int :=
    if config.skip_first > 0 then
      phaseALoop (move_to_ply config.skip_first config.perspective) max_ply start_ply []
    else []
  let interval_start_move : Int :=
    if config.skip_first > 0 then config.skip_first + config.increment
    else config.increment
  let interval_start_ply := move_to_ply interval_start_move config.perspective
  let plies := phaseBLoop max_ply (config.increment * 2) (by omega) interval_start_ply pliesA
  List.insertionSort (· ≤ ·) plies

/-- Embedding of `engine_manager.AnalysisResult`: one engine line —
move, principal variation, optional centipawn score, optional mate score,
reached depth.  Moves are abstract (`M`). -/
structure AnalysisResult (M : Type) where
  move : M
  pv : List M
  score_cp : Option Int
  score_mate : Option Int
  depth : Nat
deriving DecidableEq, Repr

/-- The `is_mate` property of `engine_manager.AnalysisResult`:
`score_mate is not None`. -/
def AnalysisResult.is_mate {M : Type} (r : AnalysisResult M) : Bool :=
  r.score_mate.isSome

/-- The per-result acceptance test of `worker._analyze_position`
(lines 268–288): a mate-scored result is always accepted; a non-mate result
needs `best_score` present, its own `score_cp` present, and
`abs(best_score - score_cp) <= tolerance`. -/
def acceptResult {M : Type} (tolerance : Int) (best_score : Option Int)
    (r : AnalysisResult M) : Bool :=
  r.is_mate ||
    match best_score, r.score_cp with
    | some b, some c => decide (|b - c| ≤ tolerance)
    | _, _ => false

/-- The accumulation loop of `worker._analyze_position` (lines 266–294):
walks the ranked results in order, appending each accepted one. -/
def acceptLoop {M : Type} (tolerance : Int) (best_score : Option Int) :
    List (AnalysisResult M) → List (AnalysisResult M)
  | [] => []
  | r :: rs =>
    if acceptResult tolerance best_score r then
      r :: acceptLoop tolerance best_score rs
    else acceptLoop tolerance best_score rs

/-- Embedding of the filtering part of `worker._analyze_position`
(lines 254–296): on an empty engine answer it returns `[]`; otherwise
`best_score = results[0].score_cp` and the loop keeps the accepted results
in ranking order. -/
def analyzePositionFilter {M : Type} (tolerance : Int)
    (results : List (AnalysisResult M)) : List (AnalysisResult M) :=
  match results with
  | [] => []
  | r0 :: _ => acceptLoop tolerance r0.score_cp results

/-- Abstraction of the python-chess board operations that
`worker._analyze_game` calls: `board.push(move)`, `move in board.legal_moves`
and `board.turn == chess.WHITE`.  python-chess is an external library, so its
board is an opaque type `B` together with these three operations. -/
structure ChessOps (B M : Type) where
  push : B → M → B
  legal : B → M → Bool
  turnWhite : B → Bool

/-- The ordered variation lists of python-chess PGN nodes: a node's
variations are an ordered forest, each entry a move together with the
variations of the child node reached by it.  `GameNode.add_variation`
appends at the end of the list (`parent.variations.append(self)`);
`variation(0)` — the main-line continuation — is the head. -/
inductive Variations (M : Type) where
  | nil : Variations M
  | cons (move : M) (children : Variations M) (rest : Variations M) : Variations M
deriving DecidableEq, Repr

/-- Concatenation of two sibling variation lists: the effect of performing
one sequence of `add_variation` calls on a node after another. -/
def Variations.append {M : Type} : Variations M → Variations M → Variations M
  | .nil, w => w
  | .cons m c r, w => .cons m c (Variations.append r w)

/-- The main line below a node: repeatedly follow `variation(0)`,
as `while node.variations: ... node = node.variation(0)` does. -/
def Variations.mainline {M : Type} : Variations M → List M
  | .nil => []
  | .cons m c _ => m :: c.mainline

/-- The move of `variation(0)` at a node, when the node has any variation. -/
def Variations.firstMove {M : Type} : Variations M → Option M
  | .nil => none
  | .cons m _ _ => some m

/-- Embedding of `worker._add_pv_to_node` (lines 308–327): starting from
`moves_added`, append PV moves in a single chain, stopping at `extension`
total moves or at the first move that is not legal on the evolving board. -/
def pvChain {B M : Type} (ops : ChessOps B M) (extension : Nat) :
    B → List M → Nat → Variations M
  | _, [], _ => .nil
  | board, move :: rest, moves_added =>
    if moves_added ≥ extension then .nil
    else if ops.legal board move then
      .cons move (pvChain ops extension (ops.push board move) rest (moves_added + 1)) .nil
    else .nil

/-- Embedding of `worker._add_variation` (lines 329–358): an empty PV or an
illegal first move adds nothing; otherwise the first move is added
unconditionally and the remaining PV moves continue the chain with
`moves_added` starting at 1, under the same extension/legality cutoffs. -/
def variationChain {B M : Type} (ops : ChessOps B M) (extension : Nat)
    (board : B) (pv : List M) : Variations M :=
  match pv with
  | [] => .nil
  | first_move :: rest =>
    if ops.legal board first_move then
      .cons first_move (pvChain ops extension (ops.push board first_move) rest 1) .nil
    else .nil

/-- The variation-insertion loop of `worker._analyze_game` (lines 222–228):
rank 0 goes through `_add_pv_to_node` (with `moves_added` starting at 0),
every later rank through `_add_variation`; each call appends to the same
output node, in rank order. -/
def varsOfResults {B M : Type} (ops : ChessOps B M) (extension : Nat) (board : B) :
    List (AnalysisResult M) → Nat → Variations M
  | [], _ => .nil
  | r :: rs, i =>
    (if i = 0 then pvChain ops extension board r.pv 0
     else variationChain ops extension board r.pv).append
      (varsOfResults ops extension board rs (i + 1))

/-- The per-ply perspective test of `worker._analyze_game` (lines 205–209). -/
def shouldAnalyze (perspective : Perspective) (isWhiteTurn : Bool) : Bool :=
  (perspective = Perspective.white && isWhiteTurn) ||
    (perspective = Perspective.black && !isWhiteTurn)

/-- Embedding of the game walk of `worker._analyze_game` (lines 191–235),
producing the variation forest of the output game's root node.  The Python
loop follows only `node.variation(0)` of the input game, so the input is
represented by its main-line move list.  `engineOut board` stands for the
raw `EngineManager.analyze` answer at a position; it is passed through the
`_analyze_position` tolerance filter exactly as in the source.  At an
analysis ply on the configured side's turn, the accepted results are
appended to the *current* output node first (lines 211–228), and only then
is the game move appended (line 233, `output_node.add_variation(move)`).
The `positions_analyzed` counter does not influence the tree and is not
modelled. -/
def analyzeGameVars {B M : Type} (ops : ChessOps B M) (perspective : Perspective)
    (extension : Nat) (tolerance : Int) (engineOut : B → List (AnalysisResult M))
    (analysis_plies : List Int) : B → Int → List M → Variations M
  | _, _, [] => .nil
  | board, current_ply, move :: restMainline =>
    let ply := current_ply + 1
    let pre : Variations M :=
      if ply ∈ analysis_plies then
        if shouldAnalyze perspective (ops.turnWhite board) then
          let results := analyzePositionFilter tolerance (engineOut board)
          varsOfResults ops extension board results 0
        else .nil
      else .nil
    pre.append
      (.cons move
        (analyzeGameVars ops perspective extension tolerance engineOut analysis_plies
          (ops.push board move) ply restMainline)
        .nil)

/-- The weight table `CANDIDATE_WEIGHTS` of `polyglot_writer.py` together
with the `.get(candidate_rank, 25)` default used by `add_entry`. -/
def weightOf (candidate_rank : Nat) : Nat :=
  match candidate_rank with
  | 0 => 100
  | 1 => 50
  | 2 => 25
  | _ => 25

/-- A book entry as accumulated by `PolyglotWriter`: position hash,
encoded move, weight.  The zobrist hash and the move encoding are computed
by `add_entry` from python-chess data; the writer's merge and sort logic
treats them as opaque numbers, which is how they appear here. -/
abbrev BookEntry : Type := Nat × Nat × Nat

/-- Embedding of `PolyglotWriter.add_entry` at the (hash, encoded move,
rank) level: appends `(hash, move, weightOf rank)` to the entry list. -/
def add_entry (entries : List BookEntry) (pos_hash encoded_move candidate_rank : Nat) :
    List BookEntry :=
  entries ++ [(pos_hash, encoded_move, weightOf candidate_rank)]

/-- A run of `add_entry` calls over a list of (hash, move, rank) additions. -/
def addAll (adds : List (Nat × Nat × Nat)) : List BookEntry :=
  adds.foldl (fun entries a => add_entry entries a.1 a.2.1 a.2.2) []

/-- One `merged_dict[key] = ...` update of `PolyglotWriter._merge_duplicates`
on a CPython dict modelled as an insertion-ordered association list: an
existing key keeps its position and gets `min(65535, old + w)`; a new key is
appended at the end. -/
def updateEntry (d : List ((Nat × Nat) × Nat)) (key : Nat × Nat) (w : Nat) :
    List ((Nat × Nat) × Nat) :=
  match d with
  | [] => [(key, w)]
  | (k, w') :: rest =>
    if k = key then (k, min 65535 (w' + w)) :: rest
    else (k, w') :: updateEntry rest key w

/-- Embedding of `PolyglotWriter._merge_duplicates` (lines 108–120): fold
the entries through the dict, then read the items back in insertion order. -/
def merge_duplicates (entries : List BookEntry) : List BookEntry :=
  (entries.foldl (fun d e => updateEntry d (e.1, e.2.1) e.2.2) []).map
    (fun kw => (kw.1.1, kw.1.2, kw.2))

/-- The record list written by `PolyglotWriter.write` (lines 87–106): empty
entries write nothing; otherwise duplicates are merged and the result is
sorted by `key=lambda x: x[0]` — hash only.  CPython's `list.sort` is
stable, as is `List.insertionSort`, so records with equal hashes keep their
merge order. -/
def writeRecords (entries : List BookEntry) : List BookEntry :=
  if entries = [] then []
  else List.insertionSort (fun a b : BookEntry => a.1 ≤ b.1) (merge_duplicates entries)

/-- The 16 bytes of one record, `struct.pack('>QHHi', hash, move, weight, 0)`:
big-endian 8-byte hash, 2-byte move, 2-byte weight, 4 zero bytes. -/
def packEntry (e : BookEntry) : List Nat :=
  [e.1 / 2 ^ 56 % 256, e.1 / 2 ^ 48 % 256, e.1 / 2 ^ 40 % 256, e.1 / 2 ^ 32 % 256,
   e.1 / 2 ^ 24 % 256, e.1 / 2 ^ 16 % 256, e.1 / 2 ^ 8 % 256, e.1 % 256,
   e.2.1 / 2 ^ 8 % 256, e.2.1 % 256,
   e.2.2 / 2 ^ 8 % 256, e.2.2 % 256,
   0, 0, 0, 0]

/-- The byte stream `PolyglotWriter.write` produces for an entry list. -/
def writeBytes (entries : List BookEntry) : List Nat :=
  (writeRecords entries).flatMap packEntry

/-- Embedding of `FileManager.distribute_games` (lines 195–219):
`distribution = [[] for _ in range(num_workers)]`, then each
`game_idx in range(total_games)` is appended to bucket `game_idx % num_workers`. -/
def distribute_games (total_games num_workers : Nat) : List (List Nat) :=
  (List.range total_games).foldl
    (fun distribution game_idx =>
      distribution.set (game_idx % num_workers)
        ((distribution.getD (game_idx % num_workers) []) ++ [game_idx]))
    (List.replicate num_workers ([] : List Nat))

/-- The control position of the game loop of `worker._run_analysis`
(lines 109–134): `checking pending` is the top of the `for` loop, about to
run the `if self._stop_requested: break` test with the listed assigned
games still to come; `inGame g rest` is the loop body analyzing game `g`
(lines 118–133), which contains no stop check; `finished` is past the
loop. -/
inductive WorkerPhase (G : Type) where
  | checking (pending : List G) : WorkerPhase G
  | inGame (g : G) (rest : List G) : WorkerPhase G
  | finished : WorkerPhase G
deriving DecidableEq, Repr

/-- The observable state of an `AnalysisWorker`: the `_stop_requested`
flag (line 45), the loop position, and the games fully processed so far. -/
structure WorkerState (G : Type) where
  stopRequested : Bool
  phase : WorkerPhase G
  processed : List G
deriving DecidableEq, Repr

/-- Embedding of `AnalysisWorker.request_stop` (lines 48–51): sets
`_stop_requested = True` (the log emission has no effect on this state). -/
def request_stop {G : Type} (s : WorkerState G) : WorkerState G :=
  { s with stopRequested := true }

/-- One step of the game loop of `worker._run_analysis`.  At `checking`,
the stop flag is consulted: if set, the loop breaks (lines 110–112);
otherwise the next assigned game is entered, or the loop ends when none
remain.  At `inGame`, the body runs to completion — the flag is *not*
consulted there — and the game is recorded as processed. -/
def workerStep {G : Type} (s : WorkerState G) : WorkerState G :=
  match s.phase with
  | .checking pending =>
    if s.stopRequested then { s with phase := .finished }
    else
      match pending with
      | [] => { s with phase := .finished }
      | g :: rest => { s with phase := .inGame g rest }
  | .inGame g rest =>
    { s with phase := .checking rest, processed := s.processed ++ [g] }
  | .finished => s

/-- An event in an interleaved execution: either the worker thread takes a
step, or the GUI thread calls `request_stop`. -/
inductive WorkerEvent where
  | tick : WorkerEvent
  | stop : WorkerEvent
deriving DecidableEq, Repr

/-- Run an interleaving of worker steps and stop requests. -/
def runEvents {G : Type} (events : List WorkerEvent) (s : WorkerState G) :
    WorkerState G :=
  events.foldl
    (fun s e =>
      match e with
      | WorkerEvent.tick => workerStep s
      | WorkerEvent.stop => request_stop s)
    s

/-! ### Lemmas about the ply planner loops -/

/-- Every element of a Phase A result was in the accumulator or satisfies
both loop guards. -/
theorem phaseALoop_mem_bound (skip_ply max_ply current : Int) (plies : List Int) :
    ∀ x ∈ phaseALoop skip_ply max_ply current plies,
      x ∈ plies ∨ (x ≤ skip_ply ∧ x ≤ max_ply) := by
  induction current, plies using phaseALoop.induct skip_ply max_ply with
  | case1 c acc hguard ih =>
    rw [phaseALoop, if_pos hguard]
    intro x hx
    rcases ih x hx with hacc | hle
    · rcases List.mem_append.mp hacc with h | h
      · exact Or.inl h
      · have hxc := List.mem_singleton.mp h
        exact Or.inr ⟨by omega, by omega⟩
    · exact Or.inr hle
  | case2 c acc hguard =>
    rw [phaseALoop, if_neg hguard]
    exact fun x hx => Or.inl hx

/-- Every element of a Phase B result was in the accumulator or passed the
loop guard `current <= max_ply`. -/
theorem phaseBLoop_mem_bound (max_ply ply_step : Int) (hstep : 0 < ply_step)
    (current : Int) (plies : List Int) :
    ∀ x ∈ phaseBLoop max_ply ply_step hstep current plies,
      x ∈ plies ∨ x ≤ max_ply := by
  induction current, plies using phaseBLoop.induct max_ply ply_step hstep with
  | case1 c acc hguard ih =>
    rw [phaseBLoop, if_pos hguard]
    intro x hx
    rcases ih x hx with hacc | hle
    · by_cases hc : c ∈ acc
      · rw [dif_pos hc] at hacc
        exact Or.inl hacc
      · rw [dif_neg hc] at hacc
        rcases List.mem_append.mp hacc with h | h
        · exact Or.inl h
        · have hxc := List.mem_singleton.mp h
          exact Or.inr (by omega)
    · exact Or.inr hle
  | case2 c acc hguard =>
    rw [phaseBLoop, if_neg hguard]
    exact fun x hx => Or.inl hx

/-- Phase A keeps the accumulator duplicate-free: every appended `current`
strictly exceeds everything accumulated so far. -/
theorem phaseALoop_nodup (skip_ply max_ply current : Int) (plies : List Int)
    (hnd : plies.Nodup) (hlt : ∀ y ∈ plies, y < current) :
    (phaseALoop skip_ply max_ply current plies).Nodup := by
  induction current, plies using phaseALoop.induct skip_ply max_ply with
  | case1 c acc hguard ih =>
    rw [phaseALoop, if_pos hguard]
    refine ih ?_ ?_
    · refine List.Nodup.append hnd (List.nodup_singleton c) ?_
      intro y hy hy'
      have := hlt y hy
      have := List.mem_singleton.mp hy'
      omega
    · intro y hy
      rcases List.mem_append.mp hy with h | h
      · have := hlt y h; omega
      · have := List.mem_singleton.mp h; omega
  | case2 c acc hguard =>
    rw [phaseALoop, if_neg hguard]
    exact hnd

/-- Phase B keeps the accumulator duplicate-free: the `current not in plies`
membership test guards every append. -/
theorem phaseBLoop_nodup (max_ply ply_step : Int) (hstep : 0 < ply_step)
    (current : Int) (plies : List Int) (hnd : plies.Nodup) :
    (phaseBLoop max_ply ply_step hstep current plies).Nodup := by
  induction current, plies using phaseBLoop.induct max_ply ply_step hstep with
  | case1 c acc hguard ih =>
    rw [phaseBLoop, if_pos hguard]
    refine ih ?_
    by_cases hc : c ∈ acc
    · rwa [dif_pos hc]
    · rw [dif_neg hc]
      refine List.Nodup.append hnd (List.nodup_singleton c) ?_
      intro y hy hy'
      exact hc (List.mem_singleton.mp hy' ▸ hy)
  | case2 c acc hguard =>
    rw [phaseBLoop, if_neg hguard]
    exact hnd

/-- Phase A preserves parity: it appends values stepping by 2 from
`current`, so everything in the result shares the parity of `current`
(given the accumulator already does). -/
theorem phaseALoop_parity (skip_ply max_ply : Int) (par : Int)
    (current : Int) (plies : List Int) (hcur : current % 2 = par)
    (hacc : ∀ y ∈ plies, y % 2 = par) :
    ∀ x ∈ phaseALoop skip_ply max_ply current plies, x % 2 = par := by
  induction current, plies using phaseALoop.induct skip_ply max_ply with
  | case1 c acc hguard ih =>
    rw [phaseALoop, if_pos hguard]
    refine ih (by omega) ?_
    intro y hy
    rcases List.mem_append.mp hy with h | h
    · exact hacc y h
    · have := List.mem_singleton.mp h; omega
  | case2 c acc hguard =>
    rw [phaseALoop, if_neg hguard]
    exact hacc

/-- Phase B preserves parity when its step is even. -/
theorem phaseBLoop_parity (max_ply ply_step : Int) (hstep : 0 < ply_step)
    (heven : ply_step % 2 = 0) (par : Int)
    (current : Int) (plies : List Int) (hcur : current % 2 = par)
    (hacc : ∀ y ∈ plies, y % 2 = par) :
    ∀ x ∈ phaseBLoop max_ply ply_step hstep current plies, x % 2 = par := by
  induction current, plies using phaseBLoop.induct max_ply ply_step hstep with
  | case1 c acc hguard ih =>
    rw [phaseBLoop, if_pos hguard]
    refine ih (by omega) ?_
    by_cases hc : c ∈ acc
    · rwa [dif_pos hc]
    · rw [dif_neg hc]
      intro y hy
      rcases List.mem_append.mp hy with h | h
      · exact hacc y h
      · have := List.mem_singleton.mp h; omega
  | case2 c acc hguard =>
    rw [phaseBLoop, if_neg hguard]
    exact hacc

/-- The parity of `move_to_ply`: own-side plies are odd for White, even
for Black. -/
theorem move_to_ply_parity (m : Int) (p : Perspective) :
    move_to_ply m p % 2 = (if p = Perspective.white then 1 else 0) := by
  cases p <;> simp [move_to_ply] <;> omega

/-- The sorted plan is a permutation of the loop output, hence: no
duplicates, every element bounded by `max_ply`, and the configured parity. -/
theorem generate_analysis_plies_facts (config : AnalysisConfig)
    (hinc : 0 < config.increment) :
    (generate_analysis_plies config hinc).Nodup ∧
      (generate_analysis_plies config hinc).Sorted (· ≤ ·) ∧
      (∀ p ∈ generate_analysis_plies config hinc,
        p ≤ move_to_ply config.max_move config.perspective) ∧
      (∀ p ∈ generate_analysis_plies config hinc,
        p % 2 = (if config.perspective = Perspective.white then 1 else 0)) := by
  unfold generate_analysis_plies
  set start_ply : Int :=
    if config.perspective = Perspective.white then 1 else 2 with hstart
  set max_ply := move_to_ply config.max_move config.perspective with hmax
  set pliesA : List Int :=
    if config.skip_first > 0 then
      phaseALoop (move_to_ply config.skip_first config.perspective) max_ply start_ply []
    else [] with hA
  set interval_start_move : Int :=
    if config.skip_first > 0 then config.skip_first + config.increment
    else config.increment with him
  set interval_start_ply := move_to_ply interval_start_move config.perspective
    with hip
  set plies := phaseBLoop max_ply (config.increment * 2) (by omega)
    interval_start_ply pliesA with hplies
  have hperm : List.Perm (List.insertionSort (· ≤ ·) plies) plies :=
    List.perm_insertionSort (· ≤ ·) plies
  have hAnodup : pliesA.Nodup := by
    rw [hA]
    split
    · exact phaseALoop_nodup _ _ _ _ List.nodup_nil (by simp)
    · exact List.nodup_nil
  have hAbound : ∀ x ∈ pliesA, x ≤ max_ply := by
    rw [hA]
    split
    · intro x hx
      rcases phaseALoop_mem_bound _ _ _ _ x hx with h | h
      · simp at h
      · exact h.2
    · simp
  have hApar : ∀ x ∈ pliesA,
      x % 2 = (if config.perspective = Perspective.white then 1 else 0) := by
    rw [hA]
    split
    · refine phaseALoop_parity _ _ _ _ _ ?_ (by simp)
      rw [hstart]
      cases hp : config.perspective <;> simp [hp]
    · simp
  have hnodup : plies.Nodup := phaseBLoop_nodup _ _ _ _ _ hAnodup
  have hbound : ∀ x ∈ plies, x ≤ max_ply := by
    intro x hx
    rcases phaseBLoop_mem_bound _ _ _ _ _ x hx with h | h
    · exact hAbound x h
    · exact h
  have hpar : ∀ x ∈ plies,
      x % 2 = (if config.perspective = Perspective.white then 1 else 0) := by
    refine phaseBLoop_parity _ _ _ (by omega) _ _ _ ?_ hApar
    rw [hip]
    rw [move_to_ply_parity]
  refine ⟨hperm.nodup_iff.mpr hnodup, List.sorted_insertionSort _ _, ?_, ?_⟩
  · intro p hp
    exact hbound p (hperm.mem_iff.mp hp)
  · intro p hp
    exact hpar p (hperm.mem_iff.mp hp)

/-- The Blitz Repertoire preset values relevant to the planner:
`skip_first = 0, increment = 7, max_move = 24`, White perspective
(`PRESET_VALUES` in `config.py`). -/
def blitzConfig : AnalysisConfig :=
  { perspective := Perspective.white, skip_first := 0, increment := 7,
    max_move := 24, extension := 5, tolerance := 150 }

/-- A validated config with a non-trivial opening phase:
`skip_first = 3, increment = 5, max_move = 24`, Black perspective. -/
def skipConfig : AnalysisConfig :=
  { perspective := Perspective.black, skip_first := 3, increment := 5,
    max_move := 24, extension := 5, tolerance := 150 }

/-- The Blitz Repertoire preset has a positive increment. -/
theorem blitz_hinc : 0 < blitzConfig.increment := by decide

/-- The opening-phase test config has a positive increment. -/
theorem skip_hinc : 0 < skipConfig.increment := by decide

/-- Concrete evaluation of the planner at the Blitz Repertoire preset:
no opening phase, interval plies 13, 27, 41 (55 exceeds `maxPly = 47`). -/
theorem blitz_plan_eval :
    generate_analysis_plies blitzConfig blitz_hinc = [13, 27, 41] := by
  simp [generate_analysis_plies, blitzConfig, move_to_ply, phaseBLoop, phaseALoop]

/-- Concrete evaluation of the planner at the opening-phase config:
opening plies 2, 4, 6, then interval plies 16, 26, 36, 46. -/
theorem skip_plan_eval :
    generate_analysis_plies skipConfig skip_hinc = [2, 4, 6, 16, 26, 36, 46] := by
  simp [generate_analysis_plies, skipConfig, move_to_ply, phaseBLoop, phaseALoop]

/-- C6: the ply planner never emits a ply beyond `toPly(max_move,
perspective)`; `toPly` follows the formula `(m-1)*2+1` for White and
`(m-1)*2+2` for Black, so `toPly(24, White) = 47`; and for
`skip_first=0, increment=7, max_move=24`, White, the emitted plan is
`[13, 27, 41]`, whose last ply is at most 47. -/
theorem claim_plan_never_exceeds_max (config : AnalysisConfig)
    (hinc : 0 < config.increment) :
    (∀ p ∈ generate_analysis_plies config hinc,
      p ≤ move_to_ply config.max_move config.perspective) ∧
    (∀ m : Int, move_to_ply m Perspective.white = (m - 1) * 2 + 1 ∧
      move_to_ply m Perspective.black = (m - 1) * 2 + 2) ∧
    move_to_ply 24 Perspective.white = 47 ∧
    generate_analysis_plies blitzConfig blitz_hinc = [13, 27, 41] ∧
    (∀ p ∈ generate_analysis_plies blitzConfig blitz_hinc, p ≤ 47) := by
  refine ⟨(generate_analysis_plies_facts config hinc).2.2.1, ?_, by decide, ?_, ?_⟩
  · intro m
    exact ⟨by simp [move_to_ply], by simp [move_to_ply]; ring⟩
  · exact blitz_plan_eval
  · rw [blitz_plan_eval]
    decide

/-- Witness for C6 at the Blitz Repertoire preset: ply 13 is in the plan
and is bounded by the maximum ply. -/
theorem claim_plan_never_exceeds_max_witness :
    (13 : Int) ≤ move_to_ply blitzConfig.max_move blitzConfig.perspective :=
  (claim_plan_never_exceeds_max blitzConfig blitz_hinc).1 13
    (by rw [blitz_plan_eval]; decide)

/-- C7: with `skip_first = 0` the plan has no duplicate plies and is
non-decreasing. -/
theorem claim_plan_nodup_monotone (config : AnalysisConfig)
    (hinc : 0 < config.increment) (_hskip : config.skip_first = 0) :
    (generate_analysis_plies config hinc).Nodup ∧
      (generate_analysis_plies config hinc).Sorted (· ≤ ·) :=
  ⟨(generate_analysis_plies_facts config hinc).1,
    (generate_analysis_plies_facts config hinc).2.1⟩

/-- Witness for C7 at the Blitz Repertoire preset (`skip_first = 0`). -/
theorem claim_plan_nodup_monotone_witness :
    (generate_analysis_plies blitzConfig blitz_hinc).Nodup ∧
      (generate_analysis_plies blitzConfig blitz_hinc).Sorted (· ≤ ·) :=
  claim_plan_nodup_monotone blitzConfig blitz_hinc (by decide)

/-- C10: for every config (any `skip_first`), the plan is strictly
increasing and every emitted ply is on the configured perspective's side:
odd for White, even for Black. -/
theorem claim_plan_strict_mono_own_side (config : AnalysisConfig)
    (hinc : 0 < config.increment) :
    (generate_analysis_plies config hinc).Sorted (· < ·) ∧
      ∀ p ∈ generate_analysis_plies config hinc,
        p % 2 = (if config.perspective = Perspective.white then 1 else 0) := by
  obtain ⟨hnd, hsorted, _, hpar⟩ := generate_analysis_plies_facts config hinc
  exact ⟨hsorted.lt_of_le hnd, hpar⟩

/-- Witness for C10 at a config with `skip_first = 3 > 0`, Black
perspective: the concrete plan is strictly increasing and ply 2 in it is
even. -/
theorem claim_plan_strict_mono_own_side_witness :
    (generate_analysis_plies skipConfig skip_hinc).Sorted (· < ·) ∧
      (2 : Int) % 2 =
        (if skipConfig.perspective = Perspective.white then 1 else 0) :=
  ⟨(claim_plan_strict_mono_own_side skipConfig skip_hinc).1,
    (claim_plan_strict_mono_own_side skipConfig skip_hinc).2 2
      (by rw [skip_plan_eval]; decide)⟩

/-! ### Lemmas and claims about the candidate filter -/

/-- The acceptance loop is `List.filter` over the per-result test: it never
reorders and keeps exactly the accepted results. -/
theorem acceptLoop_eq_filter {M : Type} (tolerance : Int) (best_score : Option Int)
    (rs : List (AnalysisResult M)) :
    acceptLoop tolerance best_score rs = rs.filter (acceptResult tolerance best_score) := by
  induction rs with
  | nil => rfl
  | cons r rs ih =>
    by_cases h : acceptResult tolerance best_score r <;>
      simp [acceptLoop, h, ih, List.filter_cons]

/-- C4: on a non-empty ranked result list, the filter output is exactly
`List.filter` of the per-result test — mate results pass unconditionally,
a non-mate result passes iff both the rank-0 result and the candidate
carry centipawn scores within `tolerance` of each other — so output order
is input ranking restricted to accepted entries.  Concretely,
`[{cp:30},{cp:-60},{cp:40}]` at tolerance 50 keeps ranks 0 and 2, in
order. -/
theorem claim_filter_characterization (M : Type) (tolerance : Int)
    (r0 : AnalysisResult M) (rs : List (AnalysisResult M)) :
    analyzePositionFilter tolerance (r0 :: rs) =
      (r0 :: rs).filter (fun r =>
        r.is_mate ||
          match r0.score_cp, r.score_cp with
          | some best, some c => decide (|best - c| ≤ tolerance)
          | _, _ => false) ∧
    analyzePositionFilter 50
      ([{ move := 0, pv := [], score_cp := some 30, score_mate := none, depth := 10 },
        { move := 1, pv := [], score_cp := some (-60), score_mate := none, depth := 10 },
        { move := 2, pv := [], score_cp := some 40, score_mate := none, depth := 10 }] :
        List (AnalysisResult Nat)) =
      [{ move := 0, pv := [], score_cp := some 30, score_mate := none, depth := 10 },
       { move := 2, pv := [], score_cp := some 40, score_mate := none, depth := 10 }] :=
  ⟨acceptLoop_eq_filter tolerance r0.score_cp (r0 :: rs), by decide⟩

/-- Counterexample to C3 as stated: `EngineManager.analyze` yields a
result with neither centipawn nor mate score whenever a UCI `info` carries
a `pv` but no `score` (lines 209–234 of `engine_manager.py`); on such a
non-empty result list the accepted set is empty, because the non-mate
branch requires `best_score` to be present. -/
theorem claim_filter_nonempty_counterexample :
    ([{ move := 0, pv := [0], score_cp := none, score_mate := none, depth := 0 }] :
        List (AnalysisResult Nat)) ≠ [] ∧
      analyzePositionFilter 150
        ([{ move := 0, pv := [0], score_cp := none, score_mate := none, depth := 0 }] :
          List (AnalysisResult Nat)) = [] := by
  exact ⟨by decide, by decide⟩

/-- C3 amended: for every non-empty ranked result list whose first result
reports mate or carries a centipawn score (every scored engine line is one
of the two), and any non-negative tolerance (validated configs have
`tolerance ∈ [50,500]`), the accepted candidate set is non-empty. -/
theorem claim_filter_nonempty_of_scored (M : Type) (tolerance : Int)
    (htol : 0 ≤ tolerance) (r0 : AnalysisResult M) (rs : List (AnalysisResult M))
    (h0 : r0.is_mate = true ∨ r0.score_cp.isSome = true) :
    analyzePositionFilter tolerance (r0 :: rs) ≠ [] := by
  have hacc : acceptResult tolerance r0.score_cp r0 = true := by
    rcases h0 with h | h
    · simp [acceptResult, h]
    · obtain ⟨b, hb⟩ := Option.isSome_iff_exists.mp h
      simp only [acceptResult, hb, Bool.or_eq_true, decide_eq_true_eq]
      right
      simp
      omega
  simp [analyzePositionFilter, acceptLoop, hacc]

/-- Witness for amended C3: a single centipawn-scored result at tolerance
150 yields a non-empty accepted set. -/
theorem claim_filter_nonempty_of_scored_witness :
    analyzePositionFilter 150
      ([{ move := 0, pv := [], score_cp := some 30, score_mate := none, depth := 10 }] :
        List (AnalysisResult Nat)) ≠ [] :=
  claim_filter_nonempty_of_scored Nat 150 (by decide)
    { move := 0, pv := [], score_cp := some 30, score_mate := none, depth := 10 } []
    (by decide)

/-! ### Lemmas and claims about the Polyglot book accumulator -/

/-- `addAll` starting from any accumulator appends one weighted entry per
addition, in order. -/
theorem addAll_foldl (adds : List (Nat × Nat × Nat)) (acc : List BookEntry) :
    adds.foldl (fun entries a => add_entry entries a.1 a.2.1 a.2.2) acc =
      acc ++ adds.map (fun a => (a.1, a.2.1, weightOf a.2.2)) := by
  induction adds generalizing acc with
  | nil => simp
  | cons a adds ih =>
    rw [List.foldl_cons, ih]
    simp [add_entry]

/-- A run of `add_entry` calls appends exactly one weighted entry per
addition. -/
theorem addAll_eq_map (adds : List (Nat × Nat × Nat)) :
    addAll adds = adds.map (fun a => (a.1, a.2.1, weightOf a.2.2)) := by
  unfold addAll
  rw [addAll_foldl, List.nil_append]

/-- Every candidate weight is at most 100 (hence at most the 16-bit cap). -/
theorem weightOf_le (r : Nat) : weightOf r ≤ 100 := by
  rcases r with _ | _ | _ | r <;> simp [weightOf]

/-- Folding same-key weights through the merge dict keeps one record whose
weight is the saturating sum. -/
theorem updateEntry_same_key (key : Nat × Nat) (ws : List Nat) (w0 : Nat)
    (hw0 : w0 ≤ 65535) :
    ws.foldl (fun d w => updateEntry d key w) [(key, w0)] =
      [(key, min 65535 (w0 + ws.sum))] := by
  induction ws generalizing w0 with
  | nil =>
    simp only [List.foldl_nil, List.sum_nil, Nat.add_zero]
    rw [Nat.min_eq_right hw0]
  | cons w ws ih =>
    have step : updateEntry [(key, w0)] key w = [(key, min 65535 (w0 + w))] := by
      simp [updateEntry]
    rw [List.foldl_cons, step, ih (min 65535 (w0 + w)) (by omega), List.sum_cons]
    congr 2
    omega

/-- `_merge_duplicates` on a run of same-key entries yields one record
with the saturating weight sum. -/
theorem merge_duplicates_same_key (pos_hash encoded_move : Nat) (w0 : Nat)
    (hw0 : w0 ≤ 65535) (ws : List Nat) :
    merge_duplicates ((w0 :: ws).map (fun w => (pos_hash, encoded_move, w))) =
      [(pos_hash, encoded_move, min 65535 (w0 + ws.sum))] := by
  show (((w0 :: ws).map (fun w => (pos_hash, encoded_move, w))).foldl
      (fun d e => updateEntry d (e.1, e.2.1) e.2.2) []).map
      (fun kw => (kw.1.1, kw.1.2, kw.2)) = _
  rw [List.foldl_map]
  show (ws.foldl (fun d w => updateEntry d (pos_hash, encoded_move) w)
      [((pos_hash, encoded_move), w0)]).map
      (fun kw => (kw.1.1, kw.1.2, kw.2)) = _
  rw [updateEntry_same_key (pos_hash, encoded_move) ws w0 hw0]
  rfl

/-- C5: entries sharing one (hash, move) key merge to a single record whose
weight is the rank-weight sum saturated at 65535; the rank weights are
100/50/25 with 25 for every rank above 2; and any insertion order of two
rank-0 additions plus one rank-1 addition finalizes to a single record of
weight 250. -/
theorem claim_book_merge_saturating (pos_hash encoded_move : Nat)
    (ranks : List Nat) (hne : ranks ≠ []) :
    merge_duplicates (addAll (ranks.map (fun r => (pos_hash, encoded_move, r)))) =
      [(pos_hash, encoded_move, min 65535 (ranks.map weightOf).sum)] ∧
    weightOf 0 = 100 ∧ weightOf 1 = 50 ∧ weightOf 2 = 25 ∧
    (∀ r, 2 < r → weightOf r = 25) ∧
    (∀ ranks2 : List Nat, List.Perm ranks2 [0, 0, 1] →
      writeRecords (addAll (ranks2.map (fun r => (pos_hash, encoded_move, r)))) =
        [(pos_hash, encoded_move, 250)]) := by
  have hmain : ∀ (rks : List Nat), rks ≠ [] →
      merge_duplicates (addAll (rks.map (fun r => (pos_hash, encoded_move, r)))) =
        [(pos_hash, encoded_move, min 65535 (rks.map weightOf).sum)] := by
    intro rks hrks
    obtain ⟨r, rest, rfl⟩ := List.exists_cons_of_ne_nil hrks
    rw [addAll_eq_map, List.map_map]
    have hcomp :
        ((fun a : Nat × Nat × Nat => (a.1, a.2.1, weightOf a.2.2)) ∘
            (fun r : Nat => (pos_hash, encoded_move, r))) =
          ((fun w : Nat => (pos_hash, encoded_move, w)) ∘ weightOf) := rfl
    rw [hcomp, ← List.map_map]
    rw [List.map_cons (f := weightOf)]
    rw [merge_duplicates_same_key pos_hash encoded_move (weightOf r)
      (le_trans (weightOf_le r) (by omega)) ((rest.map weightOf))]
    rw [List.sum_cons]
  refine ⟨hmain ranks hne, rfl, rfl, rfl, ?_, ?_⟩
  · intro r hr
    rcases r with _ | _ | _ | r
    · omega
    · omega
    · omega
    · rfl
  · intro ranks2 hperm
    have hne2 : ranks2 ≠ [] := by
      intro h
      rw [h] at hperm
      exact absurd hperm.length_eq (by decide)
    have hsum : (ranks2.map weightOf).sum = 250 := by
      rw [(hperm.map weightOf).sum_eq]
      decide
    have hmerged := hmain ranks2 hne2
    rw [hsum] at hmerged
    have hne3 : addAll (ranks2.map (fun r => (pos_hash, encoded_move, r))) ≠ [] := by
      rw [addAll_eq_map]
      obtain ⟨r, rest, rfl⟩ := List.exists_cons_of_ne_nil hne2
      simp
    rw [writeRecords, if_neg hne3, hmerged]
    norm_num [List.insertionSort, List.orderedInsert]

/-- Witness for C5: two rank-0 additions and one rank-1 addition of
(hash 7, move 9) merge to one record of the saturated weight sum 250. -/
theorem claim_book_merge_saturating_witness :
    merge_duplicates (addAll ([0, 0, 1].map (fun r => (7, 9, r)))) =
      [(7, 9, min 65535 (([0, 0, 1].map weightOf).sum))] :=
  (claim_book_merge_saturating 7 9 [0, 0, 1] (by decide)).1

/-- C2 fails on the code: `PolyglotWriter.write` sorts merged records by
hash only (`merged.sort(key=lambda x: x[0])`), and CPython's sort is
stable, so two additions with equal hash but different moves keep their
insertion order — the two insertion orders of the same multiset
{(1, move 5, rank 0), (1, move 6, rank 1)} produce different record
orders and different bytes. -/
theorem claim_book_insertion_order_leaks :
    List.Perm [(1, 5, 0), (1, 6, 1)] [(1, 6, 1), (1, 5, 0)] ∧
    writeRecords (addAll [(1, 5, 0), (1, 6, 1)]) = [(1, 5, 100), (1, 6, 50)] ∧
    writeRecords (addAll [(1, 6, 1), (1, 5, 0)]) = [(1, 6, 50), (1, 5, 100)] ∧
    writeBytes (addAll [(1, 5, 0), (1, 6, 1)]) ≠
      writeBytes (addAll [(1, 6, 1), (1, 5, 0)]) := by
  refine ⟨by decide, by decide, by decide, by decide⟩

/-! ### Claims about the game annotator -/

/-- A concrete instantiation of the external chess operations, used to
evaluate the annotator on a small input: a board is the list of moves
played so far, every move is reported legal, and White is to move when an
even number of moves has been played (as from the standard initial
position). -/
def listBoardOps : ChessOps (List Nat) Nat :=
  { push := fun b m => b ++ [m],
    legal := fun _ _ => true,
    turnWhite := fun b => b.length % 2 == 0 }

/-- The annotator output for a one-move input game (main line `[0]`),
analysis plan `[1]`, White perspective, where the engine's only result at
the starting position is move 1 with principal variation `[1]` and
centipawn score 0. -/
def demoAnnotatedGame : Variations Nat :=
  analyzeGameVars listBoardOps Perspective.white 5 150
    (fun _ => [{ move := 1, pv := [1], score_cp := some 0, score_mate := none, depth := 16 }])
    [1] [] 0 [0]

/-- C1 fails on the code: at an analyzed ply, `_analyze_game` inserts the
accepted variations into the output node *before* it appends the game move
(line 233 runs after lines 211–228), and python-chess `add_variation`
appends, so the rank-0 engine move — not the original game move — becomes
`variation(0)`.  On the one-move game `[0]` with accepted engine move 1,
the output root has the engine move first and the game move second, and
the output main line `[1]` differs from the input main line `[0]`. -/
theorem claim_annotator_main_line_diverges :
    demoAnnotatedGame =
      Variations.cons 1 Variations.nil
        (Variations.cons 0 Variations.nil Variations.nil) ∧
    demoAnnotatedGame.firstMove = some 1 ∧
    demoAnnotatedGame.mainline = [1] ∧
    demoAnnotatedGame.mainline ≠ [0] := by
  refine ⟨by decide, by decide, by decide, by decide⟩

/-! ### Claims about the worker stop protocol -/

/-- C9: stop requests are observed only at game boundaries.  (1) Issuing
`request_stop` twice leaves the same state as issuing it once.  (2) A
worker mid-game completes and records its in-flight game even if a stop
was just requested, returning to the boundary check.  (3) At a boundary
with the flag set, the loop exits without starting another game.  (4) In
any interleaving of worker steps and stop requests, an adjacent repeated
stop request does not change the final state. -/
theorem claim_worker_stop_game_granular (G : Type) (s : WorkerState G) (g : G)
    (rest pending : List G) :
    (request_stop (request_stop s) = request_stop s) ∧
    (s.phase = WorkerPhase.inGame g rest →
      (workerStep (request_stop s)).processed = s.processed ++ [g] ∧
      (workerStep (request_stop s)).phase = WorkerPhase.checking rest) ∧
    (s.phase = WorkerPhase.checking pending → s.stopRequested = true →
      workerStep s = { s with phase := WorkerPhase.finished }) ∧
    (∀ es₁ es₂ : List WorkerEvent,
      runEvents (es₁ ++ WorkerEvent.stop :: WorkerEvent.stop :: es₂) s =
        runEvents (es₁ ++ WorkerEvent.stop :: es₂) s) := by
  refine ⟨rfl, ?_, ?_, ?_⟩
  · intro h
    constructor <;> simp [workerStep, request_stop, h]
  · intro h hstop
    simp [workerStep, h, hstop]
  · intro es₁ es₂
    unfold runEvents
    rw [List.foldl_append, List.foldl_append]
    rfl

/-- Witness for C9: a worker mid-game (game 5, game 7 pending, game 3
done) that receives a stop request still finishes game 5 and returns to
the boundary check. -/
theorem claim_worker_stop_game_granular_witness :
    (workerStep (request_stop
          (⟨false, WorkerPhase.inGame 5 [7], [3]⟩ : WorkerState Nat))).processed =
        [3] ++ [5] ∧
      (workerStep (request_stop
          (⟨false, WorkerPhase.inGame 5 [7], [3]⟩ : WorkerState Nat))).phase =
        WorkerPhase.checking [7] :=
  (claim_worker_stop_game_granular Nat ⟨false, WorkerPhase.inGame 5 [7], [3]⟩
    5 [7] []).2.1 rfl

/-! ### Lemmas and claims about the dispatcher partition -/

/-- The round-robin fold preserves the number of buckets. -/
theorem distribute_fold_length (num_workers : Nat) (l : List Nat) (acc : List (List Nat)) :
    (l.foldl
        (fun distribution game_idx =>
          distribution.set (game_idx % num_workers)
            ((distribution.getD (game_idx % num_workers) []) ++ [game_idx]))
        acc).length = acc.length := by
  induction l generalizing acc with
  | nil => rfl
  | cons g l ih => rw [List.foldl_cons, ih, List.length_set]

/-- `distribute_games` yields one bucket per worker. -/
theorem distribute_games_length (total_games num_workers : Nat) :
    (distribute_games total_games num_workers).length = num_workers := by
  unfold distribute_games
  rw [distribute_fold_length, List.length_replicate]

/-- Reading a bucket after updating another bucket. -/
theorem getD_set_ne (l : List (List Nat)) (i j : Nat) (hij : i ≠ j) (v : List Nat) :
    (l.set i v).getD j [] = l.getD j [] := by
  rw [List.getD_eq_getElem?_getD, List.getD_eq_getElem?_getD, List.getElem?_set_ne hij]

/-- Reading a bucket after updating it. -/
theorem getD_set_self (l : List (List Nat)) (i : Nat) (hi : i < l.length) (v : List Nat) :
    (l.set i v).getD i [] = v := by
  rw [List.getD_eq_getElem?_getD, List.getElem?_set_self hi, Option.getD_some]

/-- Adding one more game updates exactly the bucket of its residue. -/
theorem distribute_games_succ (total_games num_workers : Nat) :
    distribute_games (total_games + 1) num_workers =
      (distribute_games total_games num_workers).set (total_games % num_workers)
        ((distribute_games total_games num_workers).getD (total_games % num_workers) []
          ++ [total_games]) := by
  unfold distribute_games
  rw [List.range_succ, List.foldl_append, List.foldl_cons, List.foldl_nil]

/-- Worker `i`'s bucket is exactly the game indices in `[0, total)` whose
residue modulo the worker count is `i` — that is, `{i, i+N, i+2N, …}`. -/
theorem distribute_games_getD (total_games num_workers : Nat) (_hN : 0 < num_workers)
    (i : Nat) (hi : i < num_workers) :
    (distribute_games total_games num_workers).getD i [] =
      (List.range total_games).filter (fun g => g % num_workers = i) := by
  induction total_games with
  | zero =>
    show (List.replicate num_workers ([] : List Nat)).getD i [] = _
    rw [List.getD_eq_getElem?_getD, List.getElem?_replicate_of_lt hi]
    rfl
  | succ T ih =>
    rw [distribute_games_succ, List.range_succ, List.filter_append]
    by_cases hTi : T % num_workers = i
    · rw [hTi, getD_set_self _ _ (by rw [distribute_games_length]; exact hi) _, ih]
      have : [T].filter (fun g => g % num_workers = i) = [T] := by
        simp [List.filter_singleton, hTi]
      rw [this]
    · rw [getD_set_ne _ _ _ hTi _, ih]
      have : [T].filter (fun g => g % num_workers = i) = [] := by
        simp [List.filter_singleton, hTi]
      rw [this, List.append_nil]

/-- The bucket sizes of the first `T` games: with `T = q·N + r`, the first
`r` buckets hold `q + 1` games and the rest hold `q`. -/
theorem bucket_length_formula (num_workers : Nat) (hN : 0 < num_workers) :
    ∀ total_games : Nat, ∃ q r, r < num_workers ∧ total_games = q * num_workers + r ∧
      ∀ i, i < num_workers →
        ((List.range total_games).filter (fun g => g % num_workers = i)).length =
          if i < r then q + 1 else q := by
  intro T
  induction T with
  | zero =>
    refine ⟨0, 0, hN, by omega, ?_⟩
    intro i _
    simp
  | succ T ih =>
    obtain ⟨q, r, hr, hT, hlen⟩ := ih
    have hmod : T % num_workers = r := by
      rw [hT, Nat.add_comm, Nat.add_mul_mod_self_right, Nat.mod_eq_of_lt hr]
    have hstep : ∀ i, i < num_workers →
        ((List.range (T + 1)).filter (fun g => g % num_workers = i)).length =
          ((List.range T).filter (fun g => g % num_workers = i)).length +
            (if r = i then 1 else 0) := by
      intro i hi
      rw [List.range_succ, List.filter_append, List.length_append]
      congr 1
      by_cases hri : r = i
      · simp [List.filter_singleton, hmod, hri]
      · simp [List.filter_singleton, hmod, hri]
    by_cases hfull : r + 1 = num_workers
    · refine ⟨q + 1, 0, hN, ?_, ?_⟩
      · have : (q + 1) * num_workers = q * num_workers + num_workers := by ring
        omega
      · intro i hi
        rw [hstep i hi, hlen i hi]
        split_ifs <;> omega
    · refine ⟨q, r + 1, by omega, by omega, ?_⟩
      intro i hi
      rw [hstep i hi, hlen i hi]
      split_ifs <;> omega

/-- C8: the dispatcher's partition is the round-robin one: there is one
bucket per worker; worker `i`'s bucket is exactly the indices below
`total_games` congruent to `i` modulo the worker count; every game index
below `total_games` lies in worker `i`'s bucket iff `i` is its residue
(hence in exactly one bucket); bucket sizes differ by at most one; and
concretely `distribute_games 10 3 = [[0,3,6,9],[1,4,7],[2,5,8]]`. -/
theorem claim_dispatcher_round_robin (total_games num_workers : Nat)
    (hN : 1 ≤ num_workers) :
    (distribute_games total_games num_workers).length = num_workers ∧
    (∀ i, i < num_workers →
      (distribute_games total_games num_workers).getD i [] =
        (List.range total_games).filter (fun g => g % num_workers = i)) ∧
    (∀ g, g < total_games → ∀ i, i < num_workers →
      (g ∈ (distribute_games total_games num_workers).getD i [] ↔
        i = g % num_workers)) ∧
    (∀ i j, i < num_workers → j < num_workers →
      ((distribute_games total_games num_workers).getD i []).length ≤
        ((distribute_games total_games num_workers).getD j []).length + 1) ∧
    distribute_games 10 3 = [[0, 3, 6, 9], [1, 4, 7], [2, 5, 8]] := by
  have hN0 : 0 < num_workers := hN
  refine ⟨distribute_games_length total_games num_workers, ?_, ?_, ?_, by decide⟩
  · intro i hi
    exact distribute_games_getD total_games num_workers hN0 i hi
  · intro g hg i hi
    rw [distribute_games_getD total_games num_workers hN0 i hi, List.mem_filter]
    constructor
    · intro ⟨_, h⟩
      exact (of_decide_eq_true h).symm
    · intro h
      exact ⟨List.mem_range.mpr hg, decide_eq_true h.symm⟩
  · intro i j hi hj
    obtain ⟨q, r, hr, hT, hlen⟩ := bucket_length_formula num_workers hN0 total_games
    rw [distribute_games_getD total_games num_workers hN0 i hi,
      distribute_games_getD total_games num_workers hN0 j hj,
      hlen i hi, hlen j hj]
    split_ifs <;> omega

/-- Witness for C8: ten games over three workers give the documented
partition. -/
theorem claim_dispatcher_round_robin_witness :
    distribute_games 10 3 = [[0, 3, 6, 9], [1, 4, 7], [2, 5, 8]] :=
  (claim_dispatcher_round_robin 10 3 (by decide)).2.2.2.2

end Tidypy
